import Mathlib

/-!
Verification of the incremental session-search core of the raycast-opencode
extension, a shallow embedding of `src/hooks/useSessionSearch.ts`.

The embedding models JavaScript strings as Lean `String`, JS `Map` objects as
insertion-ordered association lists, numeric timestamps (`time.updated`,
always a non-negative millisecond count) as `Nat`, and the asynchronous
refresh cycle of `buildIndex` as a pure function from a fetch oracle, the
persisted cache snapshot and the starting in-memory state to the final state
together with the emitted progress events and the ids that were fetched.
The flexsearch `Index` dependency (an external library, not part of this
repository) is modelled at the granularity the hook uses it: a map from
document id to the indexed text, with prefix search as described in the
specification.
-/

/-- Little-endian decimal digits of a natural number, with explicit fuel so
that the definition is structurally recursive and kernel-evaluable. -/
def digitsRev : Nat → Nat → List Nat
  | 0, _ => []
  | f + 1, n => if n = 0 then [] else (n % 10) :: digitsRev f (n / 10)

/-- Decimal rendering of a natural number, modelling the JS template literal
coercion of a non-negative integer to a string. -/
def decimalString (n : Nat) : String :=
  if n = 0 then "0" else ((digitsRev n n).reverse.map Nat.digitChar).asString

/-- JS `String.prototype.trim`: remove leading and trailing whitespace. -/
def jsTrim (s : String) : String :=
  (((s.data.dropWhile Char.isWhitespace).reverse.dropWhile Char.isWhitespace).reverse).asString

/-- JS `Array.prototype.join` with a separator. -/
def jsJoin (sep : String) : List String → String
  | [] => ""
  | [x] => x
  | x :: xs => x ++ sep ++ jsJoin sep xs

/-- JS `x || ""` for a string `x`: the empty string is falsy, every other
string is truthy, so this is the identity on strings. -/
def orEmpty (s : String) : String := if s = "" then "" else s

/-- A session as delivered by the OpenCode server (`Session` in
`src/lib/opencode.ts`); only the fields read by the search hook are
modelled, with `updated` standing for `time.updated`. -/
structure Session where
  id : String
  title : String
  directory : String
  updated : Nat
deriving DecidableEq, Repr

/-- One part of a message (`MessagePart` in `src/lib/opencode.ts`): a type
tag and an optional text payload. -/
structure MessagePart where
  type : String
  text : Option String
deriving DecidableEq, Repr

/-- Metadata of a message (`Message.info` in `src/lib/opencode.ts`). -/
structure MessageInfo where
  id : String
  sessionID : String
  role : String
deriving DecidableEq, Repr

/-- A message (`Message` in `src/lib/opencode.ts`): metadata plus ordered
parts. -/
structure Message where
  info : MessageInfo
  parts : List MessagePart
deriving DecidableEq, Repr

/-- Cache schema version (`CACHE_VERSION` in the hook). -/
def CACHE_VERSION : Nat := 1

/-- Window of recent messages used for content extraction
(`MESSAGES_PER_SESSION` in the hook). -/
def MESSAGES_PER_SESSION : Nat := 10

/-- The change-detection hash of a session: the template literal
`${session.time.updated}`. -/
def hashSession (session : Session) : String := decimalString session.updated

/-- Content extraction (`extractTextFromMessages` in the hook): take the
last `MESSAGES_PER_SESSION` messages, keep the parts whose `type` is
`"text"` and whose `text` is truthy, and join the texts with single
spaces. -/
def extractTextFromMessages (messages : List Message) : String :=
  let recentMessages := messages.drop (messages.length - MESSAGES_PER_SESSION)
  jsJoin " "
    (recentMessages.flatMap (fun msg =>
      (msg.parts.filter (fun part => part.type == "text" && part.text.getD "" != "")).map
        (fun part => part.text.getD "")))

/-- A locally held indexed record (`IndexedSession` in the hook); the field
`updated` is the `indexedAt` timestamp of the specification. -/
structure IndexedSession where
  id : String
  title : String
  directory : String
  content : String
  updated : Nat
deriving DecidableEq, Repr

/-- Insertion-ordered association list with string keys, modelling a JS
`Map`. -/
abbrev AssocMap (β : Type) := List (String × β)

/-- JS `Map.prototype.get`. -/
def amGet {β : Type} (m : AssocMap β) (k : String) : Option β :=
  (m.find? (fun p => p.1 == k)).map (·.2)

/-- JS `Map.prototype.has`. -/
def amHas {β : Type} (m : AssocMap β) (k : String) : Bool :=
  m.any (fun p => p.1 == k)

/-- JS `Map.prototype.set`: replace in place if the key exists, otherwise
append. -/
def amSet {β : Type} (m : AssocMap β) (k : String) (v : β) : AssocMap β :=
  if amHas m k then m.map (fun p => if p.1 == k then (k, v) else p) else m ++ [(k, v)]

/-- JS `Map.prototype.delete`. -/
def amDelete {β : Type} (m : AssocMap β) (k : String) : AssocMap β :=
  m.filter (fun p => p.1 != k)

/-- JS `Map.prototype.keys` as a list, in insertion order. -/
def amKeys {β : Type} (m : AssocMap β) : List String := m.map (·.1)

/-- JS `Map.prototype.values` as a list, in insertion order. -/
def amValues {β : Type} (m : AssocMap β) : List β := m.map (·.2)

/-- The in-memory state owned by the hook: the flexsearch index (modelled as
a map from id to the indexed text) and the `indexedData` record map. -/
structure IndexState where
  index : AssocMap String
  data : AssocMap IndexedSession
deriving DecidableEq, Repr

/-- Index insertion (`index.add(id, text)`). -/
def idxAdd (index : AssocMap String) (id text : String) : AssocMap String :=
  amSet index id text

/-- Index removal (`index.remove(id)`). -/
def idxRemove (index : AssocMap String) (id : String) : AssocMap String :=
  amDelete index id

/-- Whitespace splitting of a character list, keeping only non-empty runs;
the accumulator carries the word being built from the right. -/
def splitWsCore (cs : List Char) : List (List Char) × List Char :=
  cs.foldr
    (fun c acc =>
      if Char.isWhitespace c then (if acc.2.isEmpty then acc.1 else acc.2 :: acc.1, [])
      else (acc.1, c :: acc.2))
    ([], [])

/-- Whitespace tokenization of a character list. -/
def splitWs (cs : List Char) : List (List Char) :=
  let r := splitWsCore cs
  if r.2.isEmpty then r.1 else r.2 :: r.1

/-- Prefix test on character lists. -/
def isCharPrefix : List Char → List Char → Bool
  | [], _ => true
  | _ :: _, [] => false
  | a :: as, b :: bs => a == b && isCharPrefix as bs

/-- Modelled from the spec: tokenization used by the flexsearch `Index`
library (not part of this repository): whitespace-insensitive and
case-insensitive, so the text is lowercased and split on whitespace. -/
def wsTokens (s : String) : List (List Char) :=
  splitWs (s.data.map Char.toLower)

/-- Modelled from the spec: the flexsearch prefix-match policy, where a
query token matches any indexed token sharing it as a leading substring. -/
def docMatches (query text : String) : Bool :=
  (wsTokens query).any (fun q => (wsTokens text).any (fun t => isCharPrefix q t))

/-- Modelled from the spec: `index.search(query, { limit })` of the
flexsearch library returns the ids of matching documents, capped at the
limit. -/
def idxSearch (index : AssocMap String) (query : String) (limit : Nat) : List String :=
  ((index.filter (fun p => docMatches query p.2)).map (·.1)).take limit

/-- The persisted cache snapshot (`CachedIndex` in the hook). -/
structure CachedIndex where
  version : Nat
  sessionHashes : List (String × String)
  indexedSessions : List IndexedSession
deriving DecidableEq, Repr

/-- Cache load (`loadCachedIndex` in the hook): `none` stands for an absent
or unparseable stored value, in which case the state is untouched; a
version mismatch is likewise ignored; otherwise every stored record is set
in the record map and added to the index. -/
def loadCachedIndex (cachedJson : Option CachedIndex) (st : IndexState) : IndexState :=
  match cachedJson with
  | none => st
  | some cached =>
    if cached.version != CACHE_VERSION then st
    else
      cached.indexedSessions.foldl
        (fun st item =>
          { data := amSet st.data item.id item,
            index := idxAdd st.index item.id
              (item.title ++ " " ++ item.directory ++ " " ++ item.content) })
        st

/-- Cache save (`saveCachedIndex` in the hook): serialize the version, the
per-id hash map and the record values. -/
def saveCachedIndex (indexedData : AssocMap IndexedSession) : CachedIndex :=
  { version := CACHE_VERSION,
    sessionHashes := indexedData.map (fun p => (p.1, decimalString p.2.updated)),
    indexedSessions := amValues indexedData }

/-- Change detection (`findSessionsNeedingIndex` in the hook): keep the
sessions with no record, or whose hash differs from the stored hash. -/
def findSessionsNeedingIndex (sessions : List Session)
    (indexedData : AssocMap IndexedSession) : List Session :=
  sessions.filter (fun session =>
    match amGet indexedData session.id with
    | none => true
    | some cached => hashSession session != decimalString cached.updated)

/-- A fetch oracle standing for `client.getSessionMessages`: `none` models a
rejected promise (message retrieval failure) for that session id. -/
abbrev Fetch := String → Option (List Message)

/-- The record built for a session whose message fetch failed: title and
directory only, empty content, stamped with the live `updated` value. -/
def degradedRecord (session : Session) : IndexedSession :=
  { id := session.id, title := orEmpty session.title,
    directory := orEmpty session.directory, content := "",
    updated := session.updated }

/-- The record built for a session whose message fetch succeeded. -/
def fetchedRecord (session : Session) (messages : List Message) : IndexedSession :=
  { id := session.id, title := orEmpty session.title,
    directory := orEmpty session.directory,
    content := extractTextFromMessages messages,
    updated := session.updated }

/-- Indexing of one session inside `indexSessionBatch`: on fetch success the
record is built from the extracted content, any prior index entry is
removed, and both structures are updated; on fetch failure a degraded
record is created only when no record exists yet for that id. -/
def indexSession (fetch : Fetch) (session : Session) (st : IndexState) : IndexState :=
  match fetch session.id with
  | some messages =>
    let indexed := fetchedRecord session messages
    let index1 := if amHas st.data session.id then idxRemove st.index session.id else st.index
    { index := idxAdd index1 session.id
        (indexed.title ++ " " ++ indexed.directory ++ " " ++ indexed.content),
      data := amSet st.data session.id indexed }
  | none =>
    let indexed := degradedRecord session
    if amHas st.data session.id then st
    else
      { index := idxAdd st.index session.id (indexed.title ++ " " ++ indexed.directory),
        data := amSet st.data session.id indexed }

/-- One chunk (`indexSessionBatch` in the hook). The hook fans the fetches
out with `Promise.all`; completion order within a chunk is unspecified and
all mutations happen on the single JS thread, so the chunk is modelled as
one faithful linearization, processing the batch in order. -/
def indexSessionBatch (fetch : Fetch) (batch : List Session) (st : IndexState) : IndexState :=
  batch.foldl (fun st session => indexSession fetch session st) st

/-- Pruning (`pruneDeletedSessions` in the hook): every id held in the
record map but absent from the current session list is removed from the
index and from the record map. -/
def pruneDeletedSessions (sessions : List Session) (st : IndexState) : IndexState :=
  let sessionIds := sessions.map (·.id)
  (amKeys st.data).foldl
    (fun st id =>
      if sessionIds.contains id then st
      else { index := idxRemove st.index id, data := amDelete st.data id })
    st

/-- Descending sort by `time.updated`, modelling
`[...sessions].sort((a, b) => b.time.updated - a.time.updated)` (a stable
sort with that comparator). -/
def sortByUpdatedDesc (sessions : List Session) : List Session :=
  sessions.insertionSort (fun a b => b.updated ≤ a.updated)

/-- The slice `sessionsToIndex.slice(start, end)` processed at chunk index
`i`, where `start = i * batchSize` and
`end = min(start + batchSize, sessionsToIndex.length)`. -/
def batchSlice (sessionsToIndex : List Session) (batchSize i : Nat) : List Session :=
  let start := i * batchSize
  let stop := min (start + batchSize) sessionsToIndex.length
  (sessionsToIndex.drop start).take (stop - start)

/-- The chunk loop of `buildIndex`: up to four chunks, breaking at the first
empty one; after each processed chunk the progress value
`Math.round(((batchIndex + 1) / 4) * 100)` is reported. Returns the final
state, the reported progress values, and the ids fetched, in order. -/
def runChunks (fetch : Fetch) (sessionsToIndex : List Session) (batchSize : Nat) :
    Nat → Nat → IndexState → IndexState × List Nat × List String
  | 0, _, st => (st, [], [])
  | remaining + 1, i, st =>
    let batch := batchSlice sessionsToIndex batchSize i
    if batch.isEmpty then (st, [], [])
    else
      let st1 := indexSessionBatch fetch batch st
      let rest := runChunks fetch sessionsToIndex batchSize remaining (i + 1) st1
      (rest.1, (100 * (i + 1)) / 4 :: rest.2.1, batch.map (·.id) ++ rest.2.2)

/-- The outcome of one refresh cycle: final in-memory state, progress values
reported (in order), ids for which a message fetch occurred, and the cache
snapshot written at the end (`none` when the cycle returned early). -/
structure CycleResult where
  state : IndexState
  progress : List Nat
  fetched : List String
  saved : Option CachedIndex
deriving DecidableEq, Repr

/-- One refresh cycle (`buildIndex` in the hook): load the cache, sort the
sessions most-recently-updated first, detect the sessions needing indexing;
if none, report progress 100 and return early; otherwise process up to four
chunks of size `Math.ceil(n / 4)`, prune orphans against the current
session list, and save the cache. -/
def runCycle (cachedJson : Option CachedIndex) (fetch : Fetch)
    (sessions : List Session) (st0 : IndexState) : CycleResult :=
  let st1 := loadCachedIndex cachedJson st0
  let sortedSessions := sortByUpdatedDesc sessions
  let sessionsToIndex := findSessionsNeedingIndex sortedSessions st1.data
  if sessionsToIndex.length = 0 then
    { state := st1, progress := [100], fetched := [], saved := none }
  else
    let batchSize := max 1 ((sessionsToIndex.length + 3) / 4)
    let r := runChunks fetch sessionsToIndex batchSize 4 0 st1
    let st2 := pruneDeletedSessions sessions r.1
    { state := st2, progress := r.2.1, fetched := r.2.2,
      saved := some (saveCachedIndex st2.data) }

/-- The query effect of the hook (the `searchText` effect): a blank query
returns the session list as given with no index lookup; otherwise the index
is searched with limit 100, the resulting ids are mapped back to current
sessions, and the matches are sorted by `updated` descending. -/
def searchFacade (sessions : List Session) (index : AssocMap String)
    (searchText : String) : List Session :=
  if jsTrim searchText == "" then sessions
  else
    let results := idxSearch index searchText 100
    let matched := sessions.filter (fun s => results.contains s.id)
    sortByUpdatedDesc matched

/-- The in-memory state produced by `clearCache`: a fresh index and a
cleared record map (the persisted snapshot is deleted as well, which the
cycle model receives as a `none` cache argument). -/
def clearedIndexState : IndexState := { index := [], data := [] }

/-- Invariant of the specification: every id present in the in-memory index
has exactly one record in the record map (and conversely every record is
indexed); with insertion-ordered maps this is key-nodup on both components
plus agreement of key membership. -/
def keysAligned (st : IndexState) : Prop :=
  (amKeys st.index).Nodup ∧ (amKeys st.data).Nodup ∧
    ∀ id, amHas st.index id = amHas st.data id

/-- Spec-side content extractor, following section 4.1 of the specification
word for word: take the trailing window of `W` messages, keep every textual
segment (a part of type `"text"` carrying a text payload, ignoring non-text
segments such as tool calls), and concatenate the segments with a single
separating space. -/
def specFlattenRecent (W : Nat) (messages : List Message) : String :=
  let window := messages.drop (messages.length - W)
  jsJoin " "
    (window.flatMap (fun msg =>
      (msg.parts.filter (fun part => part.type == "text" && part.text.isSome)).map
        (fun part => part.text.getD "")))

/-- Spec-side content extractor restricted to non-empty textual segments;
this is the amended reading forced by the code, which drops parts whose
text payload is the empty string. -/
def specFlattenRecentNonempty (W : Nat) (messages : List Message) : String :=
  let window := messages.drop (messages.length - W)
  jsJoin " "
    (window.flatMap (fun msg =>
      (msg.parts.filter
        (fun part => part.type == "text" &&
          match part.text with
          | some t => t != ""
          | none => false)).map
        (fun part => part.text.getD "")))

/-- Value of a little-endian digit list, used to relate `digitsRev` to the
number it renders. -/
def digitsVal (l : List Nat) : Nat := l.foldr (fun d acc => d + 10 * acc) 0

/-- The progress values reported by `c` consecutive processed chunks
starting at chunk index `i`: each chunk `j` reports
`Math.round(((j + 1) / 4) * 100)`. -/
def progList : Nat → Nat → List Nat
  | _, 0 => []
  | i, c + 1 => (100 * (i + 1)) / 4 :: progList (i + 1) c

/-- Example session a with timestamp 100 (from the scenarios in the
specification). -/
def exSessionA : Session :=
  { id := "a", title := "Fix bug", directory := "/proj", updated := 100 }

/-- Example session b with timestamp 200. -/
def exSessionB : Session :=
  { id := "b", title := "Add feature", directory := "/proj", updated := 200 }

/-- A record for session a that matches its live timestamp. -/
def exRecordA : IndexedSession :=
  { id := "a", title := "Fix bug", directory := "/proj", content := "old text",
    updated := 100 }

/-- A stale record for session a (stored timestamp 50, live timestamp 100). -/
def exRecordAStale : IndexedSession :=
  { id := "a", title := "Fix bug", directory := "/proj", content := "old text",
    updated := 50 }

/-- A record for an id x that is absent from every example session list. -/
def exRecordX : IndexedSession :=
  { id := "x", title := "Gone", directory := "/tmp", content := "orphan",
    updated := 40 }

/-- A state holding a fresh record for a and an orphan record for x. -/
def exStateAX : IndexState :=
  { index := [("a", "Fix bug /proj old text"), ("x", "Gone /tmp orphan")],
    data := [("a", exRecordA), ("x", exRecordX)] }

/-- A state holding only the fresh record for a. -/
def exStateA : IndexState :=
  { index := [("a", "Fix bug /proj old text")],
    data := [("a", exRecordA)] }

/-- A state holding only the stale record for a. -/
def exStateStale : IndexState :=
  { index := [("a", "Fix bug /proj old text")],
    data := [("a", exRecordAStale)] }

/-- A fetch oracle whose message retrieval fails for every session. -/
def failFetch : Fetch := fun _ => none

/-- A message with three textual parts, one of which carries the empty
string. -/
def exMessage : Message :=
  { info := { id := "m1", sessionID := "a", role := "user" },
    parts := [{ type := "text", text := some "a" },
      { type := "text", text := some "" },
      { type := "text", text := some "b" }] }

/-! ### Association map lemmas -/

theorem amHas_true_iff {β : Type} (m : AssocMap β) (j : String) :
    amHas m j = true ↔ j ∈ amKeys m := by
  simp [amHas, amKeys, List.any_eq_true, List.mem_map]

theorem amHas_false_iff {β : Type} (m : AssocMap β) (j : String) :
    amHas m j = false ↔ j ∉ amKeys m := by
  rw [Bool.eq_false_iff]
  exact not_congr (amHas_true_iff m j)

theorem amKeys_setMap {β : Type} (m : AssocMap β) (k : String) (v : β) :
    amKeys (m.map (fun p => if p.1 == k then (k, v) else p)) = amKeys m := by
  induction m with
  | nil => rfl
  | cons p m ih =>
    simp only [List.map_cons, amKeys] at ih ⊢
    have hkey : (if p.1 == k then (k, v) else p).1 = p.1 := by
      by_cases hp : p.1 = k
      · simp [hp]
      · simp [hp]
    rw [hkey, ih]

theorem amKeys_set {β : Type} (m : AssocMap β) (k : String) (v : β) :
    amKeys (amSet m k v) = if amHas m k then amKeys m else amKeys m ++ [k] := by
  unfold amSet
  cases hb : amHas m k
  · simp [amKeys]
  · rw [if_pos rfl, if_pos rfl]
    exact amKeys_setMap m k v

theorem amKeys_set_nodup {β : Type} (m : AssocMap β) (k : String) (v : β)
    (h : (amKeys m).Nodup) : (amKeys (amSet m k v)).Nodup := by
  rw [amKeys_set]
  cases hb : amHas m k
  · have hk : k ∉ amKeys m := (amHas_false_iff m k).mp hb
    simp [List.nodup_append, h, hk]
  · simpa using h

theorem mem_amKeys_set {β : Type} (m : AssocMap β) (k : String) (v : β) (j : String) :
    j ∈ amKeys (amSet m k v) ↔ j = k ∨ j ∈ amKeys m := by
  rw [amKeys_set]
  cases hb : amHas m k
  · simp only [Bool.false_eq_true, if_false, List.mem_append, List.mem_singleton]
    tauto
  · simp only [if_true]
    constructor
    · exact Or.inr
    · rintro (hj | hj)
      · subst hj
        exact (amHas_true_iff m j).mp hb
      · exact hj

theorem amGet_set_self {β : Type} (m : AssocMap β) (k : String) (v : β) :
    amGet (amSet m k v) k = some v := by
  unfold amGet amSet
  cases hb : amHas m k
  · simp only [Bool.false_eq_true, if_false]
    rw [List.find?_append]
    have h1 : m.find? (fun p => p.1 == k) = none := by
      rw [List.find?_eq_none]
      intro p hp
      simp only [beq_iff_eq]
      intro hpk
      exact (amHas_false_iff m k).mp hb (List.mem_map.mpr ⟨p, hp, hpk⟩)
    simp [h1, List.find?]
  · simp only [if_true]
    rw [List.find?_map]
    have hpred : ((fun p : String × β => p.1 == k) ∘ fun p => if p.1 == k then (k, v) else p) =
        (fun p : String × β => p.1 == k) := by
      funext p
      by_cases hp : p.1 = k
      · simp [hp]
      · simp [hp]
    rw [hpred]
    have hsome : (m.find? (fun p => p.1 == k)).isSome = true := by
      rw [List.find?_isSome]
      rcases List.any_eq_true.mp hb with ⟨p, hp, he⟩
      exact ⟨p, hp, he⟩
    rcases Option.isSome_iff_exists.mp hsome with ⟨a, ha⟩
    have hak : a.1 = k := by simpa using List.find?_some ha
    rw [ha]
    simp [hak]

theorem amGet_set_ne {β : Type} (m : AssocMap β) (k : String) (v : β) (j : String)
    (hj : j ≠ k) : amGet (amSet m k v) j = amGet m j := by
  unfold amGet amSet
  cases hb : amHas m k
  · simp only [Bool.false_eq_true, if_false]
    rw [List.find?_append]
    have h2 : List.find? (fun p => p.1 == j) [(k, v)] = none := by
      rw [List.find?_cons_of_neg _ (by simpa using (fun he => hj he.symm : ¬ (k = j)))]
      rfl
    simp [h2]
  · simp only [if_true]
    rw [List.find?_map]
    have hpred : ((fun p : String × β => p.1 == j) ∘ fun p => if p.1 == k then (k, v) else p) =
        (fun p : String × β => p.1 == j) := by
      funext p
      by_cases hp : p.1 = k
      · simp [hp, (fun he => hj he.symm : ¬ (k = j))]
      · simp [hp]
    rw [hpred]
    cases hf : m.find? (fun p => p.1 == j) with
    | none => rfl
    | some a =>
      have haj : a.1 = j := by simpa using List.find?_some hf
      have hak : ¬ (a.1 = k) := by rw [haj]; exact hj
      simp [hak]

theorem find?_filter_key {β : Type} (l : List (String × β)) (pred : String × β → Bool)
    (j : String) (h : ∀ p ∈ l, p.1 = j → pred p = true) :
    (l.filter pred).find? (fun p => p.1 == j) = l.find? (fun p => p.1 == j) := by
  induction l with
  | nil => rfl
  | cons p l ih =>
    have ihl := ih (fun q hq => h q (List.mem_cons_of_mem p hq))
    by_cases hp : p.1 = j
    · have hpred : pred p = true := h p (List.mem_cons_self p l) hp
      rw [List.filter_cons_of_pos hpred, List.find?_cons_of_pos _ (by simpa using hp),
        List.find?_cons_of_pos _ (by simpa using hp)]
    · cases hpr : pred p
      · rw [List.filter_cons_of_neg (by simp [hpr]), List.find?_cons_of_neg _ (by simpa using hp)]
        exact ihl
      · rw [List.filter_cons_of_pos hpr, List.find?_cons_of_neg _ (by simpa using hp),
          List.find?_cons_of_neg _ (by simpa using hp)]
        exact ihl

theorem amGet_delete_ne {β : Type} (m : AssocMap β) (k : String) (j : String)
    (hj : j ≠ k) : amGet (amDelete m k) j = amGet m j := by
  unfold amGet amDelete
  rw [find?_filter_key]
  intro p _ hpj
  simp [hpj, hj]

theorem amGet_delete_self {β : Type} (m : AssocMap β) (k : String) :
    amGet (amDelete m k) k = none := by
  unfold amGet amDelete
  rw [List.find?_eq_none.mpr]
  · rfl
  · intro p hp
    rcases List.mem_filter.mp hp with ⟨_, hne⟩
    simpa using hne

theorem amKeys_delete {β : Type} (m : AssocMap β) (k : String) :
    amKeys (amDelete m k) = (amKeys m).filter (fun j => j != k) := by
  unfold amDelete amKeys
  induction m with
  | nil => rfl
  | cons p m ih =>
    by_cases hp : p.1 = k
    · rw [List.filter_cons_of_neg (by simp [hp]), List.map_cons,
        List.filter_cons_of_neg (by simp [hp])]
      exact ih
    · rw [List.filter_cons_of_pos (by simp [hp]), List.map_cons, List.map_cons,
        List.filter_cons_of_pos (by simp [hp])]
      rw [ih]

theorem amKeys_delete_nodup {β : Type} (m : AssocMap β) (k : String)
    (h : (amKeys m).Nodup) : (amKeys (amDelete m k)).Nodup := by
  rw [amKeys_delete]
  exact h.filter _

theorem mem_amKeys_delete {β : Type} (m : AssocMap β) (k : String) (j : String) :
    j ∈ amKeys (amDelete m k) ↔ j ≠ k ∧ j ∈ amKeys m := by
  rw [amKeys_delete]
  simp only [List.mem_filter, bne_iff_ne, ne_eq]
  tauto

theorem amGet_none_of_not_has {β : Type} (m : AssocMap β) (j : String)
    (h : amHas m j = false) : amGet m j = none := by
  have hk : j ∉ amKeys m := (amHas_false_iff m j).mp h
  unfold amGet
  rw [List.find?_eq_none.mpr]
  · rfl
  · intro p hp
    simp only [beq_iff_eq]
    intro hpj
    exact hk (List.mem_map.mpr ⟨p, hp, hpj⟩)

theorem amHas_of_get_some {β : Type} (m : AssocMap β) (j : String) (v : β)
    (h : amGet m j = some v) : amHas m j = true := by
  cases hh : amHas m j
  · rw [amGet_none_of_not_has m j hh] at h
    exact Option.noConfusion h
  · rfl

/-! ### State operation lemmas -/

theorem bool_eq_of_iff {b c : Bool} (h : b = true ↔ c = true) : b = c := by
  cases b <;> cases c <;> simp_all

theorem amHas_set_self {β : Type} (m : AssocMap β) (k : String) (v : β) :
    amHas (amSet m k v) k = true := by
  rw [amHas_true_iff, mem_amKeys_set]
  exact Or.inl rfl

theorem amHas_set_mono {β : Type} (m : AssocMap β) (k : String) (v : β) (j : String)
    (h : amHas m j = true) : amHas (amSet m k v) j = true := by
  rw [amHas_true_iff, mem_amKeys_set]
  exact Or.inr ((amHas_true_iff m j).mp h)

theorem amHas_delete_self {β : Type} (m : AssocMap β) (k : String) :
    amHas (amDelete m k) k = false := by
  rw [amHas_false_iff, mem_amKeys_delete]
  simp

theorem amHas_delete_false {β : Type} (m : AssocMap β) (k : String) (j : String)
    (h : amHas m j = false) : amHas (amDelete m k) j = false := by
  rw [amHas_false_iff, mem_amKeys_delete]
  rintro ⟨-, hj⟩
  exact (amHas_false_iff m j).mp h hj

theorem keysAligned_set_both (st : IndexState) (k : String) (v : IndexedSession)
    (doc : String) (h : keysAligned st) :
    keysAligned { index := idxAdd st.index k doc, data := amSet st.data k v } := by
  obtain ⟨h1, h2, h3⟩ := h
  refine ⟨amKeys_set_nodup _ _ _ h1, amKeys_set_nodup _ _ _ h2, fun j => ?_⟩
  apply bool_eq_of_iff
  dsimp only [idxAdd]
  rw [amHas_true_iff, amHas_true_iff, mem_amKeys_set, mem_amKeys_set]
  have hj : j ∈ amKeys st.index ↔ j ∈ amKeys st.data := by
    rw [← amHas_true_iff, ← amHas_true_iff, h3 j]
  tauto

theorem keysAligned_indexSession (fetch : Fetch) (s : Session) (st : IndexState)
    (h : keysAligned st) : keysAligned (indexSession fetch s st) := by
  obtain ⟨h1, h2, h3⟩ := h
  unfold indexSession
  cases hf : fetch s.id with
  | none =>
    cases hb : amHas st.data s.id
    · simp only [hb, Bool.false_eq_true, if_false]
      exact keysAligned_set_both st s.id _ _ ⟨h1, h2, h3⟩
    · simp only [hb, if_true]
      exact ⟨h1, h2, h3⟩
  | some messages =>
    cases hb : amHas st.data s.id
    · simp only [hb, Bool.false_eq_true, if_false]
      exact keysAligned_set_both st s.id _ _ ⟨h1, h2, h3⟩
    · simp only [hb, if_true]
      refine ⟨amKeys_set_nodup _ _ _ (amKeys_delete_nodup _ _ h1),
        amKeys_set_nodup _ _ _ h2, fun j => ?_⟩
      apply bool_eq_of_iff
      dsimp only [idxAdd, idxRemove]
      rw [amHas_true_iff, amHas_true_iff, mem_amKeys_set, mem_amKeys_set,
        mem_amKeys_delete]
      have hj : j ∈ amKeys st.index ↔ j ∈ amKeys st.data := by
        rw [← amHas_true_iff, ← amHas_true_iff, h3 j]
      by_cases hje : j = s.id
      · simp [hje]
      · simp only [hje, false_or]
        tauto

theorem keysAligned_indexSessionBatch (fetch : Fetch) (batch : List Session)
    (st : IndexState) (h : keysAligned st) :
    keysAligned (indexSessionBatch fetch batch st) := by
  induction batch generalizing st with
  | nil => exact h
  | cons s batch ih =>
    exact ih _ (keysAligned_indexSession fetch s st h)

theorem keysAligned_loadCachedIndex (cachedJson : Option CachedIndex) (st : IndexState)
    (h : keysAligned st) : keysAligned (loadCachedIndex cachedJson st) := by
  unfold loadCachedIndex
  cases cachedJson with
  | none => exact h
  | some cached =>
    dsimp only
    cases hv : cached.version != CACHE_VERSION
    · rw [if_neg (by simp [hv])]
      generalize cached.indexedSessions = items
      induction items generalizing st with
      | nil => exact h
      | cons item items ih =>
        exact ih _ (keysAligned_set_both st item.id _ _ h)
    · rw [if_pos rfl]
      exact h

theorem keysAligned_delete_both (st : IndexState) (k : String) (h : keysAligned st) :
    keysAligned { index := idxRemove st.index k, data := amDelete st.data k } := by
  obtain ⟨h1, h2, h3⟩ := h
  refine ⟨amKeys_delete_nodup _ _ h1, amKeys_delete_nodup _ _ h2, fun j => ?_⟩
  apply bool_eq_of_iff
  dsimp only [idxRemove]
  rw [amHas_true_iff, amHas_true_iff, mem_amKeys_delete, mem_amKeys_delete]
  have hj : j ∈ amKeys st.index ↔ j ∈ amKeys st.data := by
    rw [← amHas_true_iff, ← amHas_true_iff, h3 j]
  tauto

theorem keysAligned_pruneDeletedSessions (sessions : List Session) (st : IndexState)
    (h : keysAligned st) : keysAligned (pruneDeletedSessions sessions st) := by
  unfold pruneDeletedSessions
  generalize amKeys st.data = L
  induction L generalizing st with
  | nil => exact h
  | cons k L ih =>
    simp only [List.foldl_cons]
    by_cases hk : (sessions.map (fun s => s.id)).contains k
    · simp only [hk, if_true]
      exact ih st h
    · simp only [hk, Bool.false_eq_true, if_false]
      exact ih _ (keysAligned_delete_both st k h)

theorem keysAligned_runChunks (fetch : Fetch) (toIndex : List Session) (bs : Nat) :
    ∀ (rem i : Nat) (st : IndexState), keysAligned st →
      keysAligned (runChunks fetch toIndex bs rem i st).1 := by
  intro rem
  induction rem with
  | zero => intro i st h; exact h
  | succ rem ih =>
    intro i st h
    rw [runChunks]
    cases he : (batchSlice toIndex bs i).isEmpty
    · simp only [he, Bool.false_eq_true, if_false]
      exact ih (i + 1) _ (keysAligned_indexSessionBatch fetch _ st h)
    · simp only [he, if_true]
      exact h

theorem keysAligned_cleared : keysAligned clearedIndexState := by
  refine ⟨List.nodup_nil, List.nodup_nil, fun j => rfl⟩

theorem indexSession_fail_old (fetch : Fetch) (s : Session) (st : IndexState)
    (hf : fetch s.id = none) (hb : amHas st.data s.id = true) :
    indexSession fetch s st = st := by
  unfold indexSession
  rw [hf]
  simp [hb]

theorem indexSession_fail_new (fetch : Fetch) (s : Session) (st : IndexState)
    (hf : fetch s.id = none) (hb : amHas st.data s.id = false) :
    indexSession fetch s st =
      { index := idxAdd st.index s.id
          ((degradedRecord s).title ++ " " ++ (degradedRecord s).directory),
        data := amSet st.data s.id (degradedRecord s) } := by
  unfold indexSession
  rw [hf]
  simp [hb]

theorem indexSession_success (fetch : Fetch) (s : Session) (st : IndexState)
    (messages : List Message) (hf : fetch s.id = some messages) :
    indexSession fetch s st =
      { index := idxAdd
          (if amHas st.data s.id then idxRemove st.index s.id else st.index) s.id
          ((fetchedRecord s messages).title ++ " " ++ (fetchedRecord s messages).directory
            ++ " " ++ (fetchedRecord s messages).content),
        data := amSet st.data s.id (fetchedRecord s messages) } := by
  unfold indexSession
  rw [hf]

theorem indexSession_data_get_ne (fetch : Fetch) (s : Session) (st : IndexState)
    (j : String) (hj : j ≠ s.id) :
    amGet (indexSession fetch s st).data j = amGet st.data j := by
  unfold indexSession
  cases hf : fetch s.id with
  | none =>
    cases hb : amHas st.data s.id
    · simp only [hb, Bool.false_eq_true, if_false]
      exact amGet_set_ne _ _ _ _ hj
    · simp only [hb, if_true]
  | some messages =>
    exact amGet_set_ne _ _ _ _ hj

theorem indexSession_has_self (fetch : Fetch) (s : Session) (st : IndexState) :
    amHas (indexSession fetch s st).data s.id = true := by
  unfold indexSession
  cases hf : fetch s.id with
  | none =>
    cases hb : amHas st.data s.id
    · simp only [hb, Bool.false_eq_true, if_false]
      exact amHas_set_self _ _ _
    · simp only [hb, if_true]
  | some messages =>
    exact amHas_set_self _ _ _

theorem indexSession_has_mono (fetch : Fetch) (s : Session) (st : IndexState)
    (j : String) (h : amHas st.data j = true) :
    amHas (indexSession fetch s st).data j = true := by
  unfold indexSession
  cases hf : fetch s.id with
  | none =>
    cases hb : amHas st.data s.id
    · simp only [hb, Bool.false_eq_true, if_false]
      exact amHas_set_mono _ _ _ _ h
    · simp only [hb, if_true]
      exact h
  | some messages =>
    exact amHas_set_mono _ _ _ _ h

theorem indexSessionBatch_has_mono (fetch : Fetch) (batch : List Session)
    (st : IndexState) (j : String) (h : amHas st.data j = true) :
    amHas (indexSessionBatch fetch batch st).data j = true := by
  induction batch generalizing st with
  | nil => exact h
  | cons s batch ih =>
    exact ih _ (indexSession_has_mono fetch s st j h)

theorem indexSessionBatch_has_of_mem (fetch : Fetch) (batch : List Session)
    (st : IndexState) (t : Session) (ht : t ∈ batch) :
    amHas (indexSessionBatch fetch batch st).data t.id = true := by
  induction batch generalizing st with
  | nil => cases ht
  | cons s batch ih =>
    rcases List.mem_cons.mp ht with he | hm
    · subst he
      exact indexSessionBatch_has_mono fetch batch _ t.id
        (indexSession_has_self fetch t st)
    · exact ih _ hm

theorem indexSessionBatch_data_get_ne (fetch : Fetch) (batch : List Session)
    (st : IndexState) (j : String) (hj : ∀ t ∈ batch, t.id ≠ j) :
    amGet (indexSessionBatch fetch batch st).data j = amGet st.data j := by
  induction batch generalizing st with
  | nil => rfl
  | cons s batch ih =>
    have h1 := indexSession_data_get_ne fetch s st j
      (fun he => hj s (List.mem_cons_self s batch) he.symm)
    calc amGet (indexSessionBatch fetch (s :: batch) st).data j
        = amGet (indexSession fetch s st).data j :=
          ih _ (fun t ht => hj t (List.mem_cons_of_mem s ht))
      _ = amGet st.data j := h1

theorem runChunks_data_get_ne (fetch : Fetch) (toIndex : List Session) (bs : Nat)
    (j : String) (hj : ∀ t ∈ toIndex, t.id ≠ j) :
    ∀ (rem i : Nat) (st : IndexState),
      amGet ((runChunks fetch toIndex bs rem i st).1).data j = amGet st.data j := by
  intro rem
  induction rem with
  | zero => intro i st; rfl
  | succ rem ih =>
    intro i st
    rw [runChunks]
    cases he : (batchSlice toIndex bs i).isEmpty
    · simp only [he, Bool.false_eq_true, if_false]
      rw [ih (i + 1) _]
      apply indexSessionBatch_data_get_ne
      intro t ht
      apply hj
      unfold batchSlice at ht
      exact List.drop_subset _ _ (List.take_subset _ _ ht)
    · simp only [he, if_true]

theorem prune_data_get_of_mem (sessions : List Session) (st : IndexState) (j : String)
    (hid : (sessions.map (fun s => s.id)).contains j = true) :
    amGet (pruneDeletedSessions sessions st).data j = amGet st.data j := by
  unfold pruneDeletedSessions
  generalize amKeys st.data = L
  induction L generalizing st with
  | nil => rfl
  | cons k L ih =>
    simp only [List.foldl_cons]
    by_cases hk : (sessions.map (fun s => s.id)).contains k
    · simp only [hk, if_true]
      exact ih st
    · simp only [hk, Bool.false_eq_true, if_false]
      rw [ih]
      apply amGet_delete_ne
      intro he
      subst he
      rw [hid] at hk
      exact hk rfl

/-! ### Decimal string injectivity -/

theorem digitsRev_val (fuel : Nat) : ∀ n : Nat, n ≤ fuel →
    digitsVal (digitsRev fuel n) = n := by
  induction fuel with
  | zero =>
    intro n hn
    have : n = 0 := Nat.le_zero.mp hn
    subst this
    rfl
  | succ fuel ih =>
    intro n hn
    by_cases h0 : n = 0
    · subst h0
      simp [digitsRev, digitsVal]
    · rw [digitsRev, if_neg h0]
      have hdiv : n / 10 < n := Nat.div_lt_self (Nat.pos_of_ne_zero h0) (by norm_num)
      have hle : n / 10 ≤ fuel := by omega
      unfold digitsVal at ih ⊢
      rw [List.foldr_cons, ih (n / 10) hle]
      exact Nat.mod_add_div n 10

theorem digitsRev_lt (fuel : Nat) : ∀ (n : Nat) (d : Nat), d ∈ digitsRev fuel n → d < 10 := by
  induction fuel with
  | zero => intro n d hd; cases hd
  | succ fuel ih =>
    intro n d hd
    by_cases h0 : n = 0
    · subst h0
      rw [digitsRev, if_pos rfl] at hd
      cases hd
    · rw [digitsRev, if_neg h0] at hd
      rcases List.mem_cons.mp hd with he | hm
      · subst he
        exact Nat.mod_lt n (by norm_num)
      · exact ih (n / 10) d hm

theorem digitChar_lt_inj : ∀ a < 10, ∀ b < 10, Nat.digitChar a = Nat.digitChar b → a = b := by
  decide

theorem digitChar_zero_iff : ∀ d < 10, Nat.digitChar d = '0' → d = 0 := by
  decide

theorem map_digitChar_inj : ∀ (l1 l2 : List Nat), (∀ d ∈ l1, d < 10) → (∀ d ∈ l2, d < 10) →
    l1.map Nat.digitChar = l2.map Nat.digitChar → l1 = l2 := by
  intro l1
  induction l1 with
  | nil =>
    intro l2 _ _ h
    cases l2 with
    | nil => rfl
    | cons b l2 => simp at h
  | cons a l1 ih =>
    intro l2 h1 h2 h
    cases l2 with
    | nil => simp at h
    | cons b l2 =>
      simp only [List.map_cons, List.cons.injEq] at h
      have ha : a = b := digitChar_lt_inj a (h1 a (List.mem_cons_self a l1)) b
        (h2 b (List.mem_cons_self b l2)) h.1
      have hl : l1 = l2 := ih l2 (fun d hd => h1 d (List.mem_cons_of_mem a hd))
        (fun d hd => h2 d (List.mem_cons_of_mem b hd)) h.2
      rw [ha, hl]

theorem asString_inj {l m : List Char} (h : l.asString = m.asString) : l = m := by
  have h2 := congrArg String.data h
  simpa [List.asString] using h2

theorem decimalString_inj : ∀ m n : Nat, decimalString m = decimalString n → m = n := by
  have key : ∀ n : Nat, n ≠ 0 → decimalString n ≠ "0" := by
    intro n h0 hc
    unfold decimalString at hc
    rw [if_neg h0] at hc
    have hd := congrArg String.data hc
    simp only [List.asString] at hd
    have hd2 : (digitsRev n n).reverse.map Nat.digitChar = ['0'] := by
      simpa using hd
    have : (digitsRev n n).reverse = [0] := by
      apply map_digitChar_inj
      · intro d hd3
        exact digitsRev_lt n n d (List.mem_reverse.mp hd3)
      · intro d hd3
        simp at hd3
        omega
      · simpa using hd2
    have hrev : digitsRev n n = [0] := by
      have := congrArg List.reverse this
      simpa using this
    have hval := digitsRev_val n n (Nat.le_refl n)
    rw [hrev] at hval
    simp [digitsVal] at hval
    exact h0 hval.symm
  intro m n h
  by_cases hm : m = 0 <;> by_cases hn : n = 0
  · rw [hm, hn]
  · exfalso
    apply key n hn
    rw [← h, hm]
    rfl
  · exfalso
    apply key m hm
    rw [h, hn]
    rfl
  · unfold decimalString at h
    rw [if_neg hm, if_neg hn] at h
    have hlists := asString_inj h
    have hmaps : (digitsRev m m).reverse = (digitsRev n n).reverse := by
      apply map_digitChar_inj _ _ _ _ hlists
      · intro d hd
        exact digitsRev_lt m m d (List.mem_reverse.mp hd)
      · intro d hd
        exact digitsRev_lt n n d (List.mem_reverse.mp hd)
    have hdig : digitsRev m m = digitsRev n n := by
      have := congrArg List.reverse hmaps
      simpa using this
    have hv1 := digitsRev_val m m (Nat.le_refl m)
    have hv2 := digitsRev_val n n (Nat.le_refl n)
    rw [← hv1, ← hv2, hdig]

theorem hash_bne_iff (s : Session) (r : IndexedSession) :
    (hashSession s != decimalString r.updated) = true ↔ r.updated ≠ s.updated := by
  rw [bne_iff_ne]
  unfold hashSession
  constructor
  · intro h he
    exact h (by rw [he])
  · intro h he
    exact h (decimalString_inj _ _ he.symm)

theorem prune_fold_absent (sessions : List Session) (x : String)
    (hx : (sessions.map (fun s => s.id)).contains x = false) :
    ∀ (L : List String) (st : IndexState),
      (amHas st.data x = false ∨ x ∈ L) →
      (amHas st.index x = false ∨ x ∈ L) →
      amHas ((L.foldl
        (fun st id =>
          if (sessions.map (fun s => s.id)).contains id then st
          else { index := idxRemove st.index id, data := amDelete st.data id })
        st)).data x = false ∧
      amHas ((L.foldl
        (fun st id =>
          if (sessions.map (fun s => s.id)).contains id then st
          else { index := idxRemove st.index id, data := amDelete st.data id })
        st)).index x = false := by
  intro L
  induction L with
  | nil =>
    intro st hd hi
    simp only [List.foldl_nil]
    refine ⟨?_, ?_⟩
    · rcases hd with h | h
      · exact h
      · cases h
    · rcases hi with h | h
      · exact h
      · cases h
  | cons k L ih =>
    intro st hd hi
    simp only [List.foldl_cons]
    by_cases hk : (sessions.map (fun s => s.id)).contains k
    · simp only [hk, if_true]
      apply ih
      · rcases hd with h | h
        · exact Or.inl h
        · rcases List.mem_cons.mp h with he | hm
          · exfalso
            subst he
            rw [hx] at hk
            exact Bool.noConfusion hk
          · exact Or.inr hm
      · rcases hi with h | h
        · exact Or.inl h
        · rcases List.mem_cons.mp h with he | hm
          · exfalso
            subst he
            rw [hx] at hk
            exact Bool.noConfusion hk
          · exact Or.inr hm
    · simp only [hk, Bool.false_eq_true, if_false]
      apply ih
      · by_cases hxk : x = k
        · subst hxk
          exact Or.inl (amHas_delete_self _ _)
        · rcases hd with h | h
          · exact Or.inl (amHas_delete_false _ _ _ h)
          · rcases List.mem_cons.mp h with he | hm
            · exact absurd he hxk
            · exact Or.inr hm
      · by_cases hxk : x = k
        · subst hxk
          exact Or.inl (amHas_delete_self _ _)
        · rcases hi with h | h
          · exact Or.inl (amHas_delete_false _ _ _ h)
          · rcases List.mem_cons.mp h with he | hm
            · exact absurd he hxk
            · exact Or.inr hm

theorem prune_absent (sessions : List Session) (st : IndexState) (x : String)
    (hx : (sessions.map (fun s => s.id)).contains x = false) (h : keysAligned st) :
    amHas (pruneDeletedSessions sessions st).data x = false ∧
      amHas (pruneDeletedSessions sessions st).index x = false := by
  obtain ⟨-, -, h3⟩ := h
  unfold pruneDeletedSessions
  apply prune_fold_absent sessions x hx
  · cases hb : amHas st.data x
    · exact Or.inl rfl
    · exact Or.inr ((amHas_true_iff _ _).mp hb)
  · cases hb : amHas st.index x
    · exact Or.inl rfl
    · refine Or.inr ((amHas_true_iff _ _).mp ?_)
      rw [← h3 x]
      exact hb

theorem mem_findSessionsNeedingIndex (sessions : List Session)
    (indexedData : AssocMap IndexedSession) (s : Session) :
    s ∈ findSessionsNeedingIndex sessions indexedData ↔
      s ∈ sessions ∧ (amGet indexedData s.id = none ∨
        ∃ r, amGet indexedData s.id = some r ∧ r.updated ≠ s.updated) := by
  unfold findSessionsNeedingIndex
  rw [List.mem_filter]
  constructor
  · rintro ⟨hm, hp⟩
    refine ⟨hm, ?_⟩
    cases hg : amGet indexedData s.id with
    | none => exact Or.inl rfl
    | some r =>
      refine Or.inr ⟨r, rfl, ?_⟩
      rw [hg] at hp
      exact (hash_bne_iff s r).mp hp
  · rintro ⟨hm, hc⟩
    refine ⟨hm, ?_⟩
    cases hg : amGet indexedData s.id with
    | none => rfl
    | some r =>
      rcases hc with hc | ⟨r2, hr2, hne⟩
      · rw [hg] at hc
        exact Option.noConfusion hc
      · rw [hg] at hr2
        injection hr2 with hr2
        subst hr2
        exact (hash_bne_iff s r).mpr hne

theorem not_mem_findSessionsNeedingIndex (sessions : List Session)
    (indexedData : AssocMap IndexedSession) (s : Session) (r : IndexedSession)
    (hr : amGet indexedData s.id = some r) (hupd : r.updated = s.updated) :
    s ∉ findSessionsNeedingIndex sessions indexedData := by
  intro hmem
  rcases (mem_findSessionsNeedingIndex sessions indexedData s).mp hmem with ⟨-, hc⟩
  rcases hc with hc | ⟨r2, hr2, hne⟩
  · rw [hr] at hc
    exact Option.noConfusion hc
  · rw [hr] at hr2
    injection hr2 with hr2
    subst hr2
    exact hne hupd

/-! ### Sorting lemmas -/

instance : IsTotal Session (fun a b => b.updated ≤ a.updated) :=
  ⟨fun a b => Nat.le_total b.updated a.updated⟩

instance : IsTrans Session (fun a b => b.updated ≤ a.updated) :=
  ⟨fun _ _ _ h1 h2 => Nat.le_trans h2 h1⟩

theorem sortByUpdatedDesc_pairwise (l : List Session) :
    (sortByUpdatedDesc l).Pairwise (fun a b => b.updated ≤ a.updated) :=
  List.sorted_insertionSort _ l

theorem mem_sortByUpdatedDesc (l : List Session) (s : Session) :
    s ∈ sortByUpdatedDesc l ↔ s ∈ l :=
  List.mem_insertionSort _

theorem findSessionsNeedingIndex_sublist (sessions : List Session)
    (indexedData : AssocMap IndexedSession) :
    (findSessionsNeedingIndex sessions indexedData).Sublist sessions :=
  List.filter_sublist sessions

theorem mem_searchFacade (sessions : List Session) (index : AssocMap String)
    (searchText : String) (s : Session) (h : s ∈ searchFacade sessions index searchText) :
    s ∈ sessions := by
  unfold searchFacade at h
  by_cases ht : jsTrim searchText == ""
  · rw [if_pos ht] at h
    exact h
  · rw [if_neg ht] at h
    rw [mem_sortByUpdatedDesc] at h
    exact (List.mem_filter.mp h).1

/-! ### Chunk arithmetic -/

theorem lt_ceil_iff (bs n i : Nat) (hbs : 0 < bs) :
    i < (n + bs - 1) / bs ↔ i * bs < n := by
  rw [Nat.lt_iff_add_one_le, Nat.le_div_iff_mul_le hbs, Nat.succ_mul]
  generalize i * bs = a
  omega

theorem four_bs_ge (n : Nat) : n ≤ 4 * max 1 ((n + 3) / 4) := by
  have h1 := Nat.div_add_mod (n + 3) 4
  have h2 : (n + 3) % 4 < 4 := Nat.mod_lt _ (by norm_num)
  generalize hq : (n + 3) / 4 = q at h1
  rcases Nat.le_total 1 q with hq1 | hq1
  · rw [max_eq_right hq1]
    omega
  · rw [max_eq_left hq1]
    omega

theorem batchSlice_eq_drop_take (l : List Session) (bs i : Nat) :
    batchSlice l bs i = (l.drop (i * bs)).take bs := by
  simp only [batchSlice]
  rw [List.take_eq_take]
  simp only [List.length_drop]
  generalize i * bs = a
  omega

theorem batchSlice_isEmpty_true (l : List Session) (bs i : Nat)
    (h : l.length ≤ i * bs) : (batchSlice l bs i).isEmpty = true := by
  rw [batchSlice_eq_drop_take, List.drop_eq_nil_of_le h]
  simp

theorem batchSlice_length (l : List Session) (bs i : Nat) :
    (batchSlice l bs i).length = min bs (l.length - i * bs) := by
  rw [batchSlice_eq_drop_take]
  simp [List.length_take, List.length_drop]

theorem batchSlice_isEmpty_false (l : List Session) (bs i : Nat) (hbs : 0 < bs)
    (h : i * bs < l.length) : (batchSlice l bs i).isEmpty = false := by
  have hlen : 0 < (batchSlice l bs i).length := by
    rw [batchSlice_length]
    generalize hg : i * bs = a at h
    omega
  cases hb : batchSlice l bs i with
  | nil =>
    rw [hb] at hlen
    simp at hlen
  | cons a as => rfl

theorem runChunks_progress (fetch : Fetch) (toIndex : List Session) (bs : Nat)
    (hbs : 0 < bs) :
    ∀ (rem i : Nat) (st : IndexState),
      (runChunks fetch toIndex bs rem i st).2.1 =
        progList i (min rem ((toIndex.length + bs - 1) / bs - i)) := by
  intro rem
  induction rem with
  | zero =>
    intro i st
    simp [runChunks, progList]
  | succ rem ih =>
    intro i st
    rw [runChunks]
    by_cases hemp : toIndex.length ≤ i * bs
    · rw [batchSlice_isEmpty_true toIndex bs i hemp]
      have ht : (toIndex.length + bs - 1) / bs ≤ i := by
        by_contra hc
        push_neg at hc
        exact absurd ((lt_ceil_iff bs toIndex.length i hbs).mp hc) (by omega)
      simp [Nat.sub_eq_zero_of_le ht, progList]
    · push_neg at hemp
      rw [batchSlice_isEmpty_false toIndex bs i hbs hemp]
      simp only [Bool.false_eq_true, if_false]
      have hi : i < (toIndex.length + bs - 1) / bs :=
        (lt_ceil_iff bs toIndex.length i hbs).mpr hemp
      rw [ih (i + 1)]
      have hmin : min (rem + 1) ((toIndex.length + bs - 1) / bs - i) =
          (min rem ((toIndex.length + bs - 1) / bs - (i + 1))) + 1 := by
        generalize (toIndex.length + bs - 1) / bs = t at hi ⊢
        omega
      rw [hmin, progList]

theorem runChunks_fetched (fetch : Fetch) (toIndex : List Session) (bs : Nat)
    (hbs : 0 < bs) :
    ∀ (rem i : Nat) (st : IndexState),
      (runChunks fetch toIndex bs rem i st).2.2 =
        ((toIndex.drop (i * bs)).take (rem * bs)).map (fun s => s.id) := by
  intro rem
  induction rem with
  | zero =>
    intro i st
    simp [runChunks]
  | succ rem ih =>
    intro i st
    rw [runChunks]
    by_cases hemp : toIndex.length ≤ i * bs
    · rw [batchSlice_isEmpty_true toIndex bs i hemp]
      rw [List.drop_eq_nil_of_le hemp]
      simp
    · push_neg at hemp
      rw [batchSlice_isEmpty_false toIndex bs i hbs hemp]
      simp only [Bool.false_eq_true, if_false]
      rw [ih (i + 1), batchSlice_eq_drop_take]
      have hmul : (rem + 1) * bs = bs + rem * bs := by ring
      have hmul2 : (i + 1) * bs = bs + i * bs := by ring
      rw [hmul, hmul2, List.take_add, List.map_append, List.drop_drop,
        Nat.add_comm bs (i * bs)]

theorem take_of_four_chunks (l : List Session) (bs : Nat)
    (h : l.length ≤ 4 * bs) : l.take (4 * bs) = l := by
  apply List.take_of_length_le h

theorem batchSlice_concat_four (l : List Session) (bs : Nat)
    (h : l.length ≤ 4 * bs) :
    batchSlice l bs 0 ++ (batchSlice l bs 1 ++ (batchSlice l bs 2 ++ batchSlice l bs 3)) = l := by
  rw [batchSlice_eq_drop_take, batchSlice_eq_drop_take, batchSlice_eq_drop_take,
    batchSlice_eq_drop_take]
  have hfull : l = l.take (bs + (bs + (bs + bs))) :=
    (List.take_of_length_le (by omega)).symm
  conv_rhs => rw [hfull]
  rw [List.take_add, List.take_add, List.take_add, List.drop_drop, List.drop_drop]
  rw [show (0 : Nat) * bs = 0 from by ring, show (1 : Nat) * bs = bs from by ring,
    show (2 : Nat) * bs = bs + bs from by ring,
    show (3 : Nat) * bs = bs + (bs + bs) from by ring, List.drop_zero,
    show bs + (bs + bs) = bs + bs + bs from by ring]

theorem progList_chain (c : Nat) : ∀ i : Nat, (progList i c).Chain' (fun a b => a ≤ b) := by
  induction c with
  | zero => intro i; simp [progList]
  | succ c ih =>
    intro i
    rw [progList]
    rw [List.chain'_cons']
    refine ⟨?_, ih (i + 1)⟩
    intro b hb
    cases c with
    | zero => simp [progList] at hb
    | succ c =>
      rw [progList] at hb
      simp only [List.head?_cons, Option.mem_def, Option.some.injEq] at hb
      subst hb
      apply Nat.div_le_div_right
      omega

theorem load_fold_data (items : List IndexedSession) :
    ∀ st : IndexState, (∀ it ∈ items, amHas st.data it.id = false) →
      (items.map (fun it => it.id)).Nodup →
      ((items.foldl
        (fun st item =>
          { index := idxAdd st.index item.id
              (item.title ++ " " ++ item.directory ++ " " ++ item.content),
            data := amSet st.data item.id item })
        st)).data = st.data ++ items.map (fun it => (it.id, it)) := by
  induction items with
  | nil =>
    intro st _ _
    simp
  | cons it items ih =>
    intro st hfresh hnodup
    have hhas : amHas st.data it.id = false := hfresh it (List.mem_cons_self it items)
    have hset : amSet st.data it.id it = st.data ++ [(it.id, it)] := by
      unfold amSet
      rw [hhas]
      simp
    have hsplit : (∀ x ∈ items, ¬ x.id = it.id) ∧
        (items.map (fun it => it.id)).Nodup := by
      simpa using hnodup
    rw [List.foldl_cons]
    rw [ih _ ?_ ?_]
    · dsimp only
      rw [hset]
      simp [List.append_assoc]
    · intro x hx
      dsimp only
      rw [hset]
      unfold amHas
      rw [List.any_append]
      have h1 : amHas st.data x.id = false := hfresh x (List.mem_cons_of_mem it hx)
      have h2 : x.id ≠ it.id := fun he => hsplit.1 x hx he
      unfold amHas at h1
      rw [h1]
      simp [beq_iff_eq]
      exact fun hh => h2 hh.symm
    · exact hsplit.2

theorem extractText_eq_specNonempty (messages : List Message) :
    extractTextFromMessages messages =
      specFlattenRecentNonempty MESSAGES_PER_SESSION messages := by
  unfold extractTextFromMessages specFlattenRecentNonempty
  have hfun : ∀ msg : Message,
      (msg.parts.filter (fun part => part.type == "text" && part.text.getD "" != "")).map
        (fun part => part.text.getD "") =
      (msg.parts.filter
        (fun part => part.type == "text" &&
          match part.text with
          | some t => t != ""
          | none => false)).map
        (fun part => part.text.getD "") := by
    intro msg
    congr 1
    apply List.filter_congr
    intro part _
    cases ho : part.text with
    | none => simp [ho]
    | some t => simp [ho]
  simp only [hfun]

theorem runCycle_skip (cachedJson : Option CachedIndex) (fetch : Fetch)
    (sessions : List Session) (st0 : IndexState)
    (h : findSessionsNeedingIndex (sortByUpdatedDesc sessions)
      (loadCachedIndex cachedJson st0).data = []) :
    runCycle cachedJson fetch sessions st0 =
      { state := loadCachedIndex cachedJson st0, progress := [100], fetched := [],
        saved := none } := by
  unfold runCycle
  rw [if_pos]
  rw [h]
  rfl

theorem runCycle_nonskip (cachedJson : Option CachedIndex) (fetch : Fetch)
    (sessions : List Session) (st0 : IndexState)
    (h : findSessionsNeedingIndex (sortByUpdatedDesc sessions)
      (loadCachedIndex cachedJson st0).data ≠ []) :
    runCycle cachedJson fetch sessions st0 =
      { state := pruneDeletedSessions sessions
          (runChunks fetch
            (findSessionsNeedingIndex (sortByUpdatedDesc sessions)
              (loadCachedIndex cachedJson st0).data)
            (max 1 (((findSessionsNeedingIndex (sortByUpdatedDesc sessions)
              (loadCachedIndex cachedJson st0).data).length + 3) / 4))
            4 0 (loadCachedIndex cachedJson st0)).1,
        progress := (runChunks fetch
            (findSessionsNeedingIndex (sortByUpdatedDesc sessions)
              (loadCachedIndex cachedJson st0).data)
            (max 1 (((findSessionsNeedingIndex (sortByUpdatedDesc sessions)
              (loadCachedIndex cachedJson st0).data).length + 3) / 4))
            4 0 (loadCachedIndex cachedJson st0)).2.1,
        fetched := (runChunks fetch
            (findSessionsNeedingIndex (sortByUpdatedDesc sessions)
              (loadCachedIndex cachedJson st0).data)
            (max 1 (((findSessionsNeedingIndex (sortByUpdatedDesc sessions)
              (loadCachedIndex cachedJson st0).data).length + 3) / 4))
            4 0 (loadCachedIndex cachedJson st0)).2.2,
        saved := some (saveCachedIndex (pruneDeletedSessions sessions
          (runChunks fetch
            (findSessionsNeedingIndex (sortByUpdatedDesc sessions)
              (loadCachedIndex cachedJson st0).data)
            (max 1 (((findSessionsNeedingIndex (sortByUpdatedDesc sessions)
              (loadCachedIndex cachedJson st0).data).length + 3) / 4))
            4 0 (loadCachedIndex cachedJson st0)).1).data) } := by
  unfold runCycle
  rw [if_neg]
  intro hlen
  exact h (List.length_eq_zero.mp hlen)

/-! ### Cycle-level helper lemmas -/

theorem contains_true_iff (l : List String) (x : String) :
    l.contains x = true ↔ x ∈ l := by
  induction l with
  | nil => simp
  | cons a l ih => simp [List.contains_cons] at ih ⊢

theorem contains_false_iff (l : List String) (x : String) :
    l.contains x = false ↔ x ∉ l := by
  rw [Bool.eq_false_iff]
  exact not_congr (contains_true_iff l x)

theorem toIndex_ids_ne (sessions : List Session) (d : AssocMap IndexedSession)
    (s : Session) (r : IndexedSession)
    (hnd : (sessions.map (fun t => t.id)).Nodup) (hs : s ∈ sessions)
    (hr : amGet d s.id = some r) (hupd : r.updated = s.updated) :
    ∀ t ∈ findSessionsNeedingIndex (sortByUpdatedDesc sessions) d, t.id ≠ s.id := by
  intro t ht he
  have ht2 : t ∈ sessions := by
    rw [← mem_sortByUpdatedDesc sessions t]
    exact (findSessionsNeedingIndex_sublist _ _).subset ht
  have hts : t = s := List.inj_on_of_nodup_map hnd ht2 hs he
  subst hts
  exact not_mem_findSessionsNeedingIndex _ d t r hr hupd ht

theorem cycle_no_fetch_of_fresh_record (cachedJson : Option CachedIndex) (fetch : Fetch)
    (sessions : List Session) (st0 : IndexState) (s : Session) (r : IndexedSession)
    (hnd : (sessions.map (fun t => t.id)).Nodup) (hs : s ∈ sessions)
    (hr : amGet (loadCachedIndex cachedJson st0).data s.id = some r)
    (hupd : r.updated = s.updated) :
    s.id ∉ (runCycle cachedJson fetch sessions st0).fetched := by
  by_cases hskip : findSessionsNeedingIndex (sortByUpdatedDesc sessions)
      (loadCachedIndex cachedJson st0).data = []
  · rw [runCycle_skip _ _ _ _ hskip]
    simp
  · rw [runCycle_nonskip _ _ _ _ hskip]
    dsimp only
    have hbs : 0 < max 1 (((findSessionsNeedingIndex (sortByUpdatedDesc sessions)
        (loadCachedIndex cachedJson st0).data).length + 3) / 4) :=
      Nat.lt_of_lt_of_le Nat.zero_lt_one (le_max_left 1 _)
    rw [runChunks_fetched _ _ _ hbs 4 0 _]
    intro hmem
    rcases List.mem_map.mp hmem with ⟨t, htmem, htid⟩
    have ht : t ∈ findSessionsNeedingIndex (sortByUpdatedDesc sessions)
        (loadCachedIndex cachedJson st0).data := by
      have h1 := List.take_subset _ _ htmem
      rw [Nat.zero_mul, List.drop_zero] at h1
      exact h1
    exact toIndex_ids_ne sessions _ s r hnd hs hr hupd t ht htid

theorem cycle_record_unchanged (cachedJson : Option CachedIndex) (fetch : Fetch)
    (sessions : List Session) (st0 : IndexState) (s : Session) (r : IndexedSession)
    (hnd : (sessions.map (fun t => t.id)).Nodup) (hs : s ∈ sessions)
    (hr : amGet (loadCachedIndex cachedJson st0).data s.id = some r)
    (hupd : r.updated = s.updated) :
    amGet (runCycle cachedJson fetch sessions st0).state.data s.id = some r := by
  by_cases hskip : findSessionsNeedingIndex (sortByUpdatedDesc sessions)
      (loadCachedIndex cachedJson st0).data = []
  · rw [runCycle_skip _ _ _ _ hskip]
    exact hr
  · rw [runCycle_nonskip _ _ _ _ hskip]
    dsimp only
    rw [prune_data_get_of_mem sessions _ s.id
      ((contains_true_iff _ _).mpr (List.mem_map.mpr ⟨s, hs, rfl⟩))]
    rw [runChunks_data_get_ne fetch _ _ s.id
      (toIndex_ids_ne sessions _ s r hnd hs hr hupd) 4 0 _]
    exact hr

/-! ### Claim theorems -/

/-- C1, amended: when at least one session needs indexing, a refresh cycle
removes every id absent from the current session list from both the record
map and the index, and such an id never appears in any search result;
as stated the claim is false because a cycle in which no session needs
indexing returns early without pruning (see the counterexample), though even
then the id stays out of every search result because the facade only
returns current sessions. -/
theorem claim1_pruning (cachedJson : Option CachedIndex) (fetch : Fetch)
    (sessions : List Session) (st0 : IndexState) (x : String)
    (hx : x ∉ sessions.map (fun s => s.id))
    (halign : keysAligned st0)
    (hneed : findSessionsNeedingIndex (sortByUpdatedDesc sessions)
      (loadCachedIndex cachedJson st0).data ≠ []) :
    amHas (runCycle cachedJson fetch sessions st0).state.data x = false ∧
    amHas (runCycle cachedJson fetch sessions st0).state.index x = false ∧
    ∀ q, x ∉ (searchFacade sessions
      (runCycle cachedJson fetch sessions st0).state.index q).map (fun s => s.id) := by
  have hsearch : ∀ (idx : AssocMap String) (q : String),
      x ∉ (searchFacade sessions idx q).map (fun s => s.id) := by
    intro idx q hq
    rcases List.mem_map.mp hq with ⟨s, hs, hid⟩
    exact hx (List.mem_map.mpr ⟨s, mem_searchFacade _ _ _ _ hs, hid⟩)
  rw [runCycle_nonskip _ _ _ _ hneed]
  dsimp only
  have halign2 : keysAligned (runChunks fetch
      (findSessionsNeedingIndex (sortByUpdatedDesc sessions)
        (loadCachedIndex cachedJson st0).data)
      (max 1 (((findSessionsNeedingIndex (sortByUpdatedDesc sessions)
        (loadCachedIndex cachedJson st0).data).length + 3) / 4))
      4 0 (loadCachedIndex cachedJson st0)).1 :=
    keysAligned_runChunks _ _ _ 4 0 _ (keysAligned_loadCachedIndex _ _ halign)
  have hcontains : (sessions.map (fun s => s.id)).contains x = false :=
    (contains_false_iff _ _).mpr hx
  obtain ⟨hd, hi⟩ := prune_absent sessions _ x hcontains halign2
  exact ⟨hd, hi, fun q => hsearch _ q⟩

/-- C1 witness: a concrete non-skip cycle (session b needs indexing) starting
from a state that holds an orphan record x; after the cycle x is gone from
the record map and the index, and absent from a concrete search. -/
theorem claim1_pruning_witness :
    ("x" ∉ [exSessionB].map (fun s => s.id)) ∧
    amHas (runCycle none failFetch [exSessionB] exStateAX).state.data "x" = false ∧
    amHas (runCycle none failFetch [exSessionB] exStateAX).state.index "x" = false ∧
    "x" ∉ (searchFacade [exSessionB]
      (runCycle none failFetch [exSessionB] exStateAX).state.index "orphan").map
      (fun s => s.id) := by
  have h := claim1_pruning none failFetch [exSessionB] exStateAX "x"
    (by decide) ⟨by decide, by decide, fun id => rfl⟩ (by decide)
  exact ⟨by decide, h.1, h.2.1, h.2.2 "orphan"⟩

/-- C1 counterexample: with a session list whose only session is already
indexed and a record map holding an orphan id x, the cycle takes the early
return (no session needs indexing) and never prunes, so x is still present
in both the record map and the index afterwards, contradicting the claim. -/
theorem claim1_pruning_counterexample :
    ("x" ∉ [exSessionA].map (fun s => s.id)) ∧
    amHas (runCycle none failFetch [exSessionA] exStateAX).state.data "x" = true ∧
    amHas (runCycle none failFetch [exSessionA] exStateAX).state.index "x" = true := by
  decide

/-- C2, amended: the progress values of one cycle are non-decreasing; a cycle
with nothing to index reports exactly [100]; otherwise the reported values
are 25·(i+1) for the processed chunks i = 0,1,..., but the loop breaks at
the first empty chunk, so the final value is 100 only when all four chunks
are non-empty — for sizes whose 4-way ceil partition leaves trailing empty
chunks the cycle completes with a final value below 100 (see the
counterexample), contrary to the claim. -/
theorem claim2_progress (cachedJson : Option CachedIndex) (fetch : Fetch)
    (sessions : List Session) (st0 : IndexState) :
    ((runCycle cachedJson fetch sessions st0).progress).Chain' (fun a b => a ≤ b) ∧
    ((findSessionsNeedingIndex (sortByUpdatedDesc sessions)
        (loadCachedIndex cachedJson st0).data).length = 0 →
      (runCycle cachedJson fetch sessions st0).progress = [100]) ∧
    (∀ n, n = (findSessionsNeedingIndex (sortByUpdatedDesc sessions)
        (loadCachedIndex cachedJson st0).data).length → n ≠ 0 →
      (runCycle cachedJson fetch sessions st0).progress =
        progList 0 (min 4 ((n + max 1 ((n + 3) / 4) - 1) / max 1 ((n + 3) / 4)))) := by
  by_cases hskip : findSessionsNeedingIndex (sortByUpdatedDesc sessions)
      (loadCachedIndex cachedJson st0).data = []
  · rw [runCycle_skip _ _ _ _ hskip]
    refine ⟨by simp, fun _ => rfl, ?_⟩
    intro n hn hne
    rw [hskip] at hn
    simp at hn
    exact absurd hn hne
  · rw [runCycle_nonskip _ _ _ _ hskip]
    dsimp only
    have hbs : 0 < max 1 (((findSessionsNeedingIndex (sortByUpdatedDesc sessions)
        (loadCachedIndex cachedJson st0).data).length + 3) / 4) :=
      Nat.lt_of_lt_of_le Nat.zero_lt_one (le_max_left 1 _)
    rw [runChunks_progress _ _ _ hbs 4 0 _]
    rw [Nat.sub_zero]
    refine ⟨progList_chain _ 0, ?_, ?_⟩
    · intro hlen
      exact absurd (List.length_eq_zero.mp hlen) hskip
    · intro n hn _
      rw [hn]

/-- C2 witness: a concrete non-skip cycle with two sessions to index; the
reported progress list matches the amended formula and is [25, 50]. -/
theorem claim2_progress_witness :
    ((runCycle none failFetch [exSessionA, exSessionB] clearedIndexState).progress).Chain'
      (fun a b => a ≤ b) ∧
    (runCycle none failFetch [exSessionA, exSessionB] clearedIndexState).progress =
      [25, 50] := by
  have h := claim2_progress none failFetch [exSessionA, exSessionB] clearedIndexState
  refine ⟨h.1, ?_⟩
  have h2 := h.2.2 2 (by decide) (by decide)
  rw [h2]
  decide

/-- C2 counterexample: with exactly two sessions needing indexing the 4-way
ceil partition is [1,1,0,0]; the loop breaks at the first empty chunk, so the
cycle completes with 50 as the last reported progress value, never reporting
100. -/
theorem claim2_progress_counterexample :
    ((runCycle none failFetch [exSessionA, exSessionB] clearedIndexState).progress) =
      [25, 50] ∧
    ((runCycle none failFetch [exSessionA, exSessionB] clearedIndexState).progress).getLast?
      = some 50 := by
  decide

/-- C3, amended: a failed message fetch never aborts the batch (every member
of the batch is present in the record map afterwards) and the failing
session is never left fully unindexed: if no record existed, a degraded
record (title and directory only) is created; but when a record for that id
already existed the state is left completely unchanged — the old record and
postings are kept, not replaced as the claim states (see the
counterexample). -/
theorem claim3_degraded_indexing (fetch : Fetch) (batch : List Session)
    (st : IndexState) (s t : Session)
    (hfail : fetch s.id = none) (ht : t ∈ batch) :
    amHas (indexSession fetch s st).data s.id = true ∧
    (amHas st.data s.id = false →
      indexSession fetch s st =
        { index := idxAdd st.index s.id
            ((degradedRecord s).title ++ " " ++ (degradedRecord s).directory),
          data := amSet st.data s.id (degradedRecord s) } ∧
      amGet (indexSession fetch s st).data s.id = some (degradedRecord s)) ∧
    (amHas st.data s.id = true → indexSession fetch s st = st) ∧
    amHas (indexSessionBatch fetch batch st).data t.id = true := by
  refine ⟨indexSession_has_self fetch s st, ?_, ?_,
    indexSessionBatch_has_of_mem fetch batch st t ht⟩
  · intro hb
    refine ⟨indexSession_fail_new fetch s st hfail hb, ?_⟩
    rw [indexSession_fail_new fetch s st hfail hb]
    dsimp only
    exact amGet_set_self _ _ _
  · intro hb
    exact indexSession_fail_old fetch s st hfail hb

/-- C3 witness: a concrete batch of one session whose fetch fails and which
has no prior record; it ends up indexed with the degraded record. -/
theorem claim3_degraded_indexing_witness :
    amHas (indexSession failFetch exSessionB clearedIndexState).data "b" = true ∧
    amGet (indexSession failFetch exSessionB clearedIndexState).data "b" =
      some (degradedRecord exSessionB) ∧
    amHas (indexSessionBatch failFetch [exSessionB] clearedIndexState).data "b" = true := by
  have h := claim3_degraded_indexing failFetch [exSessionB] clearedIndexState
    exSessionB exSessionB rfl (by decide)
  exact ⟨h.1, (h.2.1 (by decide)).2, h.2.2.2⟩

/-- C3 counterexample: session a has a stale record and its fetch fails; the
claim says the old record and postings are replaced by the degraded record,
but the code leaves the state untouched: the old record (content "old
text") survives and differs from the degraded record. -/
theorem claim3_degraded_indexing_counterexample :
    indexSession failFetch exSessionA exStateStale = exStateStale ∧
    amGet (indexSession failFetch exSessionA exStateStale).data "a" =
      some exRecordAStale ∧
    exRecordAStale.content = "old text" ∧
    (degradedRecord exSessionA).content = "" ∧
    exRecordAStale ≠ degradedRecord exSessionA := by
  decide

/-- C4, amended: for a blank (empty or whitespace-only) query the facade
returns the current session list exactly as given, independent of the index
(no index lookup); the result is therefore in updatedAt-descending order
only when the input list already is (the code does not re-sort on this
path, so the claim as stated fails for an unsorted input list — see the
counterexample; the actual caller passes a list it has already sorted). -/
theorem claim4_empty_query (sessions : List Session) (index index2 : AssocMap String)
    (searchText : String) (h : jsTrim searchText = "") :
    searchFacade sessions index searchText = sessions ∧
    searchFacade sessions index searchText = searchFacade sessions index2 searchText := by
  have hb : (jsTrim searchText == "") = true := by
    rw [h]
    rfl
  unfold searchFacade
  rw [if_pos hb, if_pos hb]
  exact ⟨rfl, rfl⟩

/-- C4 witness: a concrete whitespace-only query returns the list as given,
for two different indexes. -/
theorem claim4_empty_query_witness :
    searchFacade [exSessionA, exSessionB] [] "  " = [exSessionA, exSessionB] ∧
    searchFacade [exSessionA, exSessionB] [] "  " =
      searchFacade [exSessionA, exSessionB] [("a", "Fix bug")] "  " := by
  exact claim4_empty_query [exSessionA, exSessionB] [] [("a", "Fix bug")] "  " (by decide)

/-- C4 counterexample: with the empty query and an input list that is not in
updatedAt-descending order, the facade returns the list unchanged, not the
descending reordering the claim requires. -/
theorem claim4_empty_query_counterexample :
    searchFacade [exSessionA, exSessionB] [] "" = [exSessionA, exSessionB] ∧
    sortByUpdatedDesc [exSessionA, exSessionB] = [exSessionB, exSessionA] ∧
    searchFacade [exSessionA, exSessionB] [] "" ≠ [exSessionB, exSessionA] := by
  decide

/-- C5, amended: the change detector selects exactly the sessions with no
record or whose stored timestamp differs from the live updatedAt; and a
session whose record after cache load carries its live updatedAt is not
fetched in the cycle. The unconditional second half of the claim is false:
a session whose fetch failed while a stale record existed keeps the old
stored timestamp, so it is selected and fetched again on the next cycle
even though its updatedAt did not change (see the counterexample). -/
theorem claim5_change_detection (sessions : List Session)
    (indexedData : AssocMap IndexedSession) (s : Session)
    (cachedJson : Option CachedIndex) (fetch : Fetch) (sessions2 : List Session)
    (st0 : IndexState) (r : IndexedSession)
    (hnd : (sessions2.map (fun t => t.id)).Nodup) (hs : s ∈ sessions2)
    (hr : amGet (loadCachedIndex cachedJson st0).data s.id = some r)
    (hupd : r.updated = s.updated) :
    (s ∈ findSessionsNeedingIndex sessions indexedData ↔
      s ∈ sessions ∧ (amGet indexedData s.id = none ∨
        ∃ rec, amGet indexedData s.id = some rec ∧ rec.updated ≠ s.updated)) ∧
    s.id ∉ (runCycle cachedJson fetch sessions2 st0).fetched := by
  exact ⟨mem_findSessionsNeedingIndex sessions indexedData s,
    cycle_no_fetch_of_fresh_record cachedJson fetch sessions2 st0 s r hnd hs hr hupd⟩

/-- C5 witness: session a is selected when its stored timestamp is stale and
not selected when it matches; in a concrete cycle over a freshly indexed a,
no fetch of a occurs. -/
theorem claim5_change_detection_witness :
    (exSessionA ∈ findSessionsNeedingIndex [exSessionA] [("a", exRecordAStale)]) ∧
    (exSessionA ∉ findSessionsNeedingIndex [exSessionA] [("a", exRecordA)]) ∧
    "a" ∉ (runCycle none failFetch [exSessionA] exStateA).fetched := by
  have h := claim5_change_detection [exSessionA] [("a", exRecordAStale)] exSessionA
    none failFetch [exSessionA] exStateA exRecordA
    (by decide) (by decide) (by decide) (by decide)
  refine ⟨?_, by decide, h.2⟩
  rw [h.1]
  exact ⟨by decide, Or.inr ⟨exRecordAStale, by decide, by decide⟩⟩

/-- C5 counterexample: session a (updatedAt 100) is unchanged between two
consecutive cycles, yet its messages are fetched on both: the first cycle
fails the fetch and keeps the stale record (stored timestamp 50), so the
second cycle selects and fetches a again. -/
theorem claim5_change_detection_counterexample :
    ("a" ∈ (runCycle none failFetch [exSessionA] exStateStale).fetched) ∧
    ("a" ∈ (runCycle (runCycle none failFetch [exSessionA] exStateStale).saved failFetch
      [exSessionA] (runCycle none failFetch [exSessionA] exStateStale).state).fetched) := by
  decide

/-- C6, confirmed: the sessions needing indexing are taken in
most-recently-updated-first order (the detected list is pairwise descending
in updatedAt), the four chunk slices of size ceil(n/4) concatenate back to
the whole list (later chunks smaller or empty), the chunk at index i has
length min(ceil(n/4), n - i·ceil(n/4)), and a non-skip cycle fetches exactly
the detected sessions in that order; in particular for the two-session
scenario the chunks are [1,1,0,0] with the more recent session first. -/
theorem claim6_batching (cachedJson : Option CachedIndex) (fetch : Fetch)
    (sessions : List Session) (st0 : IndexState) :
    (findSessionsNeedingIndex (sortByUpdatedDesc sessions)
        (loadCachedIndex cachedJson st0).data).Pairwise
      (fun a b => b.updated ≤ a.updated) ∧
    (batchSlice (findSessionsNeedingIndex (sortByUpdatedDesc sessions)
          (loadCachedIndex cachedJson st0).data)
        (max 1 (((findSessionsNeedingIndex (sortByUpdatedDesc sessions)
          (loadCachedIndex cachedJson st0).data).length + 3) / 4)) 0 ++
      (batchSlice (findSessionsNeedingIndex (sortByUpdatedDesc sessions)
          (loadCachedIndex cachedJson st0).data)
        (max 1 (((findSessionsNeedingIndex (sortByUpdatedDesc sessions)
          (loadCachedIndex cachedJson st0).data).length + 3) / 4)) 1 ++
      (batchSlice (findSessionsNeedingIndex (sortByUpdatedDesc sessions)
          (loadCachedIndex cachedJson st0).data)
        (max 1 (((findSessionsNeedingIndex (sortByUpdatedDesc sessions)
          (loadCachedIndex cachedJson st0).data).length + 3) / 4)) 2 ++
      batchSlice (findSessionsNeedingIndex (sortByUpdatedDesc sessions)
          (loadCachedIndex cachedJson st0).data)
        (max 1 (((findSessionsNeedingIndex (sortByUpdatedDesc sessions)
          (loadCachedIndex cachedJson st0).data).length + 3) / 4)) 3))) =
      findSessionsNeedingIndex (sortByUpdatedDesc sessions)
        (loadCachedIndex cachedJson st0).data ∧
    (∀ i, (batchSlice (findSessionsNeedingIndex (sortByUpdatedDesc sessions)
          (loadCachedIndex cachedJson st0).data)
        (max 1 (((findSessionsNeedingIndex (sortByUpdatedDesc sessions)
          (loadCachedIndex cachedJson st0).data).length + 3) / 4)) i).length =
      min (max 1 (((findSessionsNeedingIndex (sortByUpdatedDesc sessions)
          (loadCachedIndex cachedJson st0).data).length + 3) / 4))
        ((findSessionsNeedingIndex (sortByUpdatedDesc sessions)
          (loadCachedIndex cachedJson st0).data).length -
          i * max 1 (((findSessionsNeedingIndex (sortByUpdatedDesc sessions)
            (loadCachedIndex cachedJson st0).data).length + 3) / 4))) ∧
    (findSessionsNeedingIndex (sortByUpdatedDesc sessions)
        (loadCachedIndex cachedJson st0).data ≠ [] →
      (runCycle cachedJson fetch sessions st0).fetched =
        (findSessionsNeedingIndex (sortByUpdatedDesc sessions)
          (loadCachedIndex cachedJson st0).data).map (fun s => s.id)) ∧
    (batchSlice [exSessionB, exSessionA] 1 0 = [exSessionB] ∧
      batchSlice [exSessionB, exSessionA] 1 1 = [exSessionA] ∧
      batchSlice [exSessionB, exSessionA] 1 2 = [] ∧
      batchSlice [exSessionB, exSessionA] 1 3 = []) := by
  refine ⟨?_, ?_, ?_, ?_, by decide⟩
  · exact List.Pairwise.filter _ (sortByUpdatedDesc_pairwise sessions)
  · exact batchSlice_concat_four _ _ (four_bs_ge _)
  · intro i
    exact batchSlice_length _ _ i
  · intro hne
    rw [runCycle_nonskip _ _ _ _ hne]
    dsimp only
    have hbs : 0 < max 1 (((findSessionsNeedingIndex (sortByUpdatedDesc sessions)
        (loadCachedIndex cachedJson st0).data).length + 3) / 4) :=
      Nat.lt_of_lt_of_le Nat.zero_lt_one (le_max_left 1 _)
    rw [runChunks_fetched _ _ _ hbs 4 0 _, Nat.zero_mul, List.drop_zero,
      List.take_of_length_le (four_bs_ge _)]

/-- C6 witness: the concrete two-session run processes b (updatedAt 200)
before a (updatedAt 100). -/
theorem claim6_batching_witness :
    (runCycle none failFetch [exSessionA, exSessionB] clearedIndexState).fetched =
      ["b", "a"] := by
  have h := (claim6_batching none failFetch [exSessionA, exSessionB]
    clearedIndexState).2.2.2.1 (by decide)
  rw [h]
  decide

/-- C7, amended: the extractor equals the spec-side flattening of the last
10 messages restricted to non-empty textual segments, and when there are at
most 10 messages the window is the whole list; the claim as stated is false
because a textual segment whose payload is the empty string is dropped
entirely rather than contributing an empty slot between two separating
spaces (see the counterexample). -/
theorem claim7_extractor (messages : List Message) :
    extractTextFromMessages messages =
      specFlattenRecentNonempty MESSAGES_PER_SESSION messages ∧
    (messages.length ≤ MESSAGES_PER_SESSION →
      messages.drop (messages.length - MESSAGES_PER_SESSION) = messages) := by
  refine ⟨extractText_eq_specNonempty messages, ?_⟩
  intro h
  rw [Nat.sub_eq_zero_of_le h, List.drop_zero]

/-- C7 witness: the concrete one-message list with segments "a", "" and "b"
satisfies the amended equality, and the window is the whole list. -/
theorem claim7_extractor_witness :
    extractTextFromMessages [exMessage] =
      specFlattenRecentNonempty MESSAGES_PER_SESSION [exMessage] ∧
    [exMessage].drop ([exMessage].length - MESSAGES_PER_SESSION) = [exMessage] := by
  have h := claim7_extractor [exMessage]
  exact ⟨h.1, h.2 (by decide)⟩

/-- C7 counterexample: a message whose parts carry the texts "a", "" and "b"
yields "a b" from the code, while concatenating every textual segment with a
single separating space yields "a  b"; the two functions disagree. -/
theorem claim7_extractor_counterexample :
    extractTextFromMessages [exMessage] = "a b" ∧
    specFlattenRecent MESSAGES_PER_SESSION [exMessage] = "a  b" ∧
    extractTextFromMessages [exMessage] ≠
      specFlattenRecent MESSAGES_PER_SESSION [exMessage] := by
  decide

/-- C8, confirmed: every mutating operation — cache load, per-session
indexing (success or failure), pruning, and cache clear — preserves the
invariant that the ids in the index coincide with the record-map keys with
exactly one record per id; moreover the record stored for a session after
indexing it either was built from that session (its stored timestamp equals
the live updatedAt) or is the untouched pre-existing record. -/
theorem claim8_invariant (st : IndexState) (cachedJson : Option CachedIndex)
    (fetch : Fetch) (s : Session) (batch sessions : List Session)
    (h : keysAligned st) :
    keysAligned (loadCachedIndex cachedJson st) ∧
    keysAligned (indexSession fetch s st) ∧
    keysAligned (indexSessionBatch fetch batch st) ∧
    keysAligned (pruneDeletedSessions sessions st) ∧
    keysAligned clearedIndexState ∧
    (∀ rec, amGet (indexSession fetch s st).data s.id = some rec →
      rec.updated = s.updated ∨ amGet st.data s.id = some rec) := by
  refine ⟨keysAligned_loadCachedIndex _ _ h, keysAligned_indexSession _ _ _ h,
    keysAligned_indexSessionBatch _ _ _ h, keysAligned_pruneDeletedSessions _ _ h,
    keysAligned_cleared, ?_⟩
  intro rec hrec
  cases hf : fetch s.id with
  | some messages =>
    rw [indexSession_success fetch s st messages hf] at hrec
    dsimp only at hrec
    rw [amGet_set_self] at hrec
    injection hrec with hrec
    exact Or.inl (by rw [← hrec]; rfl)
  | none =>
    cases hb : amHas st.data s.id
    · rw [indexSession_fail_new fetch s st hf hb] at hrec
      dsimp only at hrec
      rw [amGet_set_self] at hrec
      injection hrec with hrec
      exact Or.inl (by rw [← hrec]; rfl)
    · rw [indexSession_fail_old fetch s st hf hb] at hrec
      exact Or.inr hrec

/-- C8 witness: the invariant holds through a concrete load, indexing of
session b, batch, prune and clear starting from the aligned two-record
state. -/
theorem claim8_invariant_witness :
    keysAligned (indexSession failFetch exSessionB exStateAX) ∧
    keysAligned (pruneDeletedSessions [exSessionA] exStateAX) ∧
    (∀ rec, amGet (indexSession failFetch exSessionB exStateAX).data "b" = some rec →
      rec.updated = exSessionB.updated ∨ amGet exStateAX.data "b" = some rec) := by
  have h := claim8_invariant exStateAX none failFetch exSessionB [exSessionB] [exSessionA]
    ⟨by decide, by decide, fun id => rfl⟩
  exact ⟨h.2.1, h.2.2.2.1, h.2.2.2.2.2⟩

/-- C9, confirmed: serializing a record map to a cache snapshot stores the
schema version and the record sequence, and deserializing that snapshot
into a fresh state reproduces the record map exactly (same ids with the same
title, directory, content and stored timestamp). -/
theorem claim9_roundtrip (indexedData : AssocMap IndexedSession)
    (hkeys : (amKeys indexedData).Nodup)
    (hwf : ∀ p ∈ indexedData, p.2.id = p.1) :
    (saveCachedIndex indexedData).version = CACHE_VERSION ∧
    (saveCachedIndex indexedData).indexedSessions = amValues indexedData ∧
    (loadCachedIndex (some (saveCachedIndex indexedData)) clearedIndexState).data =
      indexedData := by
  refine ⟨rfl, rfl, ?_⟩
  unfold loadCachedIndex
  dsimp only
  rw [if_neg (by simp [saveCachedIndex])]
  have hfresh : ∀ it ∈ (saveCachedIndex indexedData).indexedSessions,
      amHas clearedIndexState.data it.id = false := fun it _ => rfl
  have hnodup2 : ((saveCachedIndex indexedData).indexedSessions.map
      (fun it => it.id)).Nodup := by
    show ((amValues indexedData).map (fun it => it.id)).Nodup
    unfold amValues
    rw [List.map_map]
    have he : indexedData.map ((fun it => it.id) ∘ (fun p => p.2)) =
        indexedData.map (fun p => p.1) :=
      List.map_congr_left (fun p hp => hwf p hp)
    rw [he]
    exact hkeys
  rw [load_fold_data _ clearedIndexState hfresh hnodup2]
  show ([] : AssocMap IndexedSession) ++
    ((amValues indexedData).map (fun it => (it.id, it))) = indexedData
  rw [List.nil_append]
  unfold amValues
  rw [List.map_map]
  have h2 : indexedData.map ((fun it => ((it.id : String), it)) ∘ (fun p => p.2)) =
      indexedData.map id := by
    apply List.map_congr_left
    intro p hp
    simp only [Function.comp_apply, id]
    rw [hwf p hp]
  rw [h2, List.map_id]

/-- C9 witness: the concrete one-record map round-trips exactly. -/
theorem claim9_roundtrip_witness :
    (saveCachedIndex [("a", exRecordA)]).version = CACHE_VERSION ∧
    (loadCachedIndex (some (saveCachedIndex [("a", exRecordA)])) clearedIndexState).data =
      [("a", exRecordA)] := by
  have h := claim9_roundtrip [("a", exRecordA)] (by decide) (by decide)
  exact ⟨h.1, h.2.2⟩

/-- C10, confirmed: a session first indexed through the fetch-failure path
gets a degraded record stamped with its live updatedAt and empty content;
consequently, in any later cycle in which the loaded record for that id
still carries the live updatedAt, the session is not selected, no fetch of
it occurs, and the record — title and directory only — survives the cycle
unchanged. -/
theorem claim10_degraded_persists (fetch1 : Fetch) (s : Session) (st : IndexState)
    (cachedJson : Option CachedIndex) (fetch2 : Fetch) (sessions : List Session)
    (st2 : IndexState) (r : IndexedSession)
    (hfail : fetch1 s.id = none) (hnew : amHas st.data s.id = false)
    (hnd : (sessions.map (fun t => t.id)).Nodup) (hs : s ∈ sessions)
    (hr : amGet (loadCachedIndex cachedJson st2).data s.id = some r)
    (hupd : r.updated = s.updated) :
    amGet (indexSession fetch1 s st).data s.id = some (degradedRecord s) ∧
    (degradedRecord s).updated = s.updated ∧
    (degradedRecord s).content = "" ∧
    s.id ∉ (runCycle cachedJson fetch2 sessions st2).fetched ∧
    amGet (runCycle cachedJson fetch2 sessions st2).state.data s.id = some r := by
  refine ⟨?_, rfl, rfl,
    cycle_no_fetch_of_fresh_record cachedJson fetch2 sessions st2 s r hnd hs hr hupd,
    cycle_record_unchanged cachedJson fetch2 sessions st2 s r hnd hs hr hupd⟩
  rw [indexSession_fail_new fetch1 s st hfail hnew]
  dsimp only
  exact amGet_set_self _ _ _

/-- C10 witness: session b is first indexed through a failing fetch; in the
following cycle over the resulting state, b is not fetched and its degraded
record survives unchanged. -/
theorem claim10_degraded_persists_witness :
    amGet (indexSession failFetch exSessionB clearedIndexState).data "b" =
      some (degradedRecord exSessionB) ∧
    "b" ∉ (runCycle none failFetch [exSessionB]
      (indexSession failFetch exSessionB clearedIndexState)).fetched ∧
    amGet (runCycle none failFetch [exSessionB]
      (indexSession failFetch exSessionB clearedIndexState)).state.data "b" =
      some (degradedRecord exSessionB) := by
  have h := claim10_degraded_persists failFetch exSessionB clearedIndexState
    none failFetch [exSessionB] (indexSession failFetch exSessionB clearedIndexState)
    (degradedRecord exSessionB) rfl (by decide) (by decide) (by decide) (by decide) rfl
  exact ⟨h.1, h.2.2.2.1, h.2.2.2.2⟩
